import Mathlib

/-!
Verification development for the stripe-SVG conversion core of
`stripe_app.py` (function `build_svg_tree`, lines 42-118).

The pixel grid is a row-major list of rows (`uint8` brightness values for
monochrome input, RGB triples for color input).  Arithmetic on block means
is modelled exactly over `ℚ`; Python's `int(...)` truncation toward zero is
`pyInt`.  Dictionaries keyed by an integer coordinate are modelled by
filtering the ordered list of (coordinate, segment) appends, which preserves
both insertion order inside a bucket and the `sorted(line_buffer.keys())`
iteration order.
-/

attribute [local semireducible] Rat.add Rat.sub Rat.mul Rat.inv Rat.ofScientific

namespace StripeApp

/-- Python `int(q)`: truncation toward zero (floor for nonnegative values,
ceiling for negative ones). -/
def pyInt (q : ℚ) : ℤ := if 0 ≤ q then ⌊q⌋ else ⌈q⌉

/-- One entry of a `line_buffer` bucket: the tuple `(x1, x2, stroke_color)`
appended at line 85 / line 90 of `stripe_app.py`. -/
structure Seg where
  x1 : ℕ
  x2 : ℕ
  color : String
deriving DecidableEq

/-- The `direction` argument: `"水平"` (horizontal) or `"垂直"` (vertical). -/
inductive Direction
  | horizontal
  | vertical
deriving DecidableEq

/-- The decoded image together with the processing mode: `mode == "モノクロ"`
gives a 2-D brightness array, `mode == "カラー"` a 3-D RGB array. -/
inductive Img
  | mono (g : List (List ℕ))
  | color (g : List (List (ℕ × ℕ × ℕ)))
deriving DecidableEq

/-- Python slice `l[lo:lo+len]` (clipped, never padded). -/
def slice1 (lo len : ℕ) (l : List α) : List α := (l.drop lo).take len

/-- Numpy slice `img[oy:oy+bs, ox:ox+bs]` (line 65), clipped at the grid
boundary exactly as numpy slicing is. -/
def slice2 (oy ox bs : ℕ) (g : List (List α)) : List (List α) :=
  (slice1 oy bs g).map (slice1 ox bs)

/-- Number of pixels of a sliced block; `block.size == 0` (line 66) holds iff
this is `0` (for RGB data `block.size` is three times this, with the same
zero test). -/
def pixelCount (g : List (List α)) : ℕ := (g.map List.length).sum

/-- `np.mean(block)` for a 2-D block: total sum over total count, exact. -/
def blockMean (b : List (List ℕ)) : ℚ :=
  ((b.flatten.sum : ℕ) : ℚ) / ((pixelCount b : ℕ) : ℚ)

/-- Per-channel `np.mean(block.reshape(-1, 3), axis=0)` (line 71), exact. -/
def blockMeanRGB (b : List (List (ℕ × ℕ × ℕ))) : ℚ × ℚ × ℚ :=
  let px := b.flatten
  let n : ℚ := ((pixelCount b : ℕ) : ℚ)
  (((px.map (fun p => p.1)).sum : ℕ) / n,
   ((px.map (fun p => p.2.1)).sum : ℕ) / n,
   ((px.map (fun p => p.2.2)).sum : ℕ) / n)

/-- `int(np.dot(avg_color, [0.2989, 0.5870, 0.1140]))` (line 73): the ITU-R
luminance of the block's mean color, truncated toward zero. -/
def grayOf (c : ℚ × ℚ × ℚ) : ℤ :=
  pyInt (c.1 * (2989 / 10000) + c.2.1 * (5870 / 10000) + c.2.2 * (1140 / 10000))

/-- Lower-case hexadecimal digit. -/
def hexDigit (n : ℕ) : Char :=
  if n < 10 then Char.ofNat (48 + n) else Char.ofNat (87 + n)

/-- `"{:02x}".format n` for `n < 256` (channel means of `uint8` data never
exceed 255). -/
def hex2 (n : ℕ) : String := String.mk [hexDigit (n / 16), hexDigit (n % 16)]

/-- `"#{:02x}{:02x}{:02x}".format(*avg_color.astype(int))` (line 72);
`astype(int)` truncates toward zero. -/
def hexColor (c : ℚ × ℚ × ℚ) : String :=
  "#" ++ hex2 (pyInt c.1).toNat ++ hex2 (pyInt c.2.1).toNat ++ hex2 (pyInt c.2.2).toNat

/-- `int(((255 - lum) / 255) * max_lines)` (lines 74 and 77). -/
def densityFromLum (lum : ℚ) (maxLines : ℕ) : ℤ :=
  pyInt ((((255 : ℚ) - lum) / 255) * (maxLines : ℕ))

/-- Density and stroke color of the block at origin `(oy, ox)`
(lines 69-78).  `range(density)` of a negative Python int is empty, so the
density is kept as a natural number via `Int.toNat`. -/
def sampleOf : Img → ℕ → ℕ → ℕ → ℕ → ℕ × String
  | Img.mono g, oy, ox, bs, ml =>
      ((densityFromLum (blockMean (slice2 oy ox bs g)) ml).toNat, "black")
  | Img.color g, oy, ox, bs, ml =>
      let avg := blockMeanRGB (slice2 oy ox bs g)
      ((densityFromLum ((grayOf avg : ℤ) : ℚ) ml).toNat, hexColor avg)

/-- `range(0, n, bs)` (lines 63-64) for positive step `bs`: the multiples of
`bs` below `n`, in ascending order. -/
def origins (n bs : ℕ) : List ℕ := (List.range n).filter (fun k => k % bs == 0)

/-- The perpendicular coordinates generated for one block (lines 80-89):
`origin + i * line_spacing` for `i in range(density)`, stopping at the first
coordinate that reaches `origin + block_size` (the `break`). -/
def blockLines (origin bs sp d : ℕ) : List ℕ :=
  ((List.range d).map (fun i => origin + i * sp)).takeWhile
    (fun c => decide (c < origin + bs))

/-- Origin of the block on the axis perpendicular to the stripes. -/
def perpOrigin (dir : Direction) (oy ox : ℕ) : ℕ :=
  match dir with
  | Direction.horizontal => oy
  | Direction.vertical => ox

/-- Origin of the block along the stripe direction. -/
def alongOrigin (dir : Direction) (oy ox : ℕ) : ℕ :=
  match dir with
  | Direction.horizontal => ox
  | Direction.vertical => oy

/-- `block.size` (line 66): total number of array entries of the sliced
block (RGB data has three entries per pixel). -/
def blockSizeAt (img : Img) (oy ox bs : ℕ) : ℕ :=
  match img with
  | Img.mono g => pixelCount (slice2 oy ox bs g)
  | Img.color g => 3 * pixelCount (slice2 oy ox bs g)

/-- All `(coordinate, segment)` pairs appended to `line_buffer` by the block
at `(oy, ox)` (lines 65-90), in append order.  The emitted extent is
`(along, along + block_size)` - the code does not clip it to the grid. -/
def blockAppends (img : Img) (dir : Direction) (bs ml sp oy ox : ℕ) :
    List (ℕ × Seg) :=
  if blockSizeAt img oy ox bs = 0 then []
  else
    (blockLines (perpOrigin dir oy ox) bs sp (sampleOf img oy ox bs ml).1).map
      (fun c => (c, ⟨alongOrigin dir oy ox, alongOrigin dir oy ox + bs,
                     (sampleOf img oy ox bs ml).2⟩))

/-- Every append performed by the double block loop (lines 63-90), in
program order: `oy` outer, `ox` inner. -/
def rawAppends (img : Img) (w h : ℕ) (dir : Direction) (bs ml sp : ℕ) :
    List (ℕ × Seg) :=
  (origins h bs).flatMap (fun oy =>
    (origins w bs).flatMap (fun ox => blockAppends img dir bs ml sp oy ox))

/-- `line_buffer[y]`: the appends at coordinate `y`, in insertion order
(python dicts preserve it). -/
def bucket (ap : List (ℕ × Seg)) (y : ℕ) : List Seg :=
  (ap.filter (fun p => p.1 == y)).map Prod.snd

/-- `sorted(line_buffer.keys())` (line 101): the coordinates with a
nonempty bucket, ascending.  `bound` is any strict upper bound on the
generated coordinates. -/
def sortedKeys (ap : List (ℕ × Seg)) (bound : ℕ) : List ℕ :=
  (List.range bound).filter (fun y => !(bucket ap y).isEmpty)

/-- Lexicographic order on the tuples `(x1, x2, color)`: exactly how Python's
`sorted(segments)` (line 94) compares bucket entries. -/
def segLE (a b : Seg) : Prop :=
  a.x1 < b.x1 ∨ (a.x1 = b.x1 ∧ (a.x2 < b.x2 ∨ (a.x2 = b.x2 ∧ a.color ≤ b.color)))

instance : DecidableRel segLE := fun a b =>
  inferInstanceAs (Decidable (_ ∨ _))

instance : IsTrans Seg segLE where
  trans a b c hab hbc := by
    rcases hab with h | ⟨e1, h⟩ <;> rcases hbc with h' | ⟨e1', h'⟩
    · exact Or.inl (lt_trans h h')
    · exact Or.inl (e1' ▸ h)
    · exact Or.inl (e1 ▸ h')
    · refine Or.inr ⟨e1.trans e1', ?_⟩
      rcases h with h2 | ⟨e2, h2⟩ <;> rcases h' with h2' | ⟨e2', h2'⟩
      · exact Or.inl (lt_trans h2 h2')
      · exact Or.inl (e2' ▸ h2)
      · exact Or.inl (e2 ▸ h2')
      · exact Or.inr ⟨e2.trans e2', le_trans h2 h2'⟩

instance : IsTotal Seg segLE where
  total a b := by
    rcases Nat.lt_trichotomy a.x1 b.x1 with h | h | h
    · exact Or.inl (Or.inl h)
    · rcases Nat.lt_trichotomy a.x2 b.x2 with h2 | h2 | h2
      · exact Or.inl (Or.inr ⟨h, Or.inl h2⟩)
      · rcases le_total a.color b.color with h3 | h3
        · exact Or.inl (Or.inr ⟨h, Or.inr ⟨h2, h3⟩⟩)
        · exact Or.inr (Or.inr ⟨h.symm, Or.inr ⟨h2.symm, h3⟩⟩)
      · exact Or.inr (Or.inr ⟨h.symm, Or.inl h2⟩)
    · exact Or.inr (Or.inl h)

/-- `sorted(segments)` (line 94): a stable sort by the tuple order; since the
tuple order is total and antisymmetric, any correct sort gives the Python
result. -/
def sortSegs (l : List Seg) : List Seg := List.insertionSort segLE l

/-- One iteration of the merge loop body (lines 95-98) acting on the
accumulated `merged` list. -/
def mergeStep (thr : ℕ) (merged : List Seg) (s : Seg) : List Seg :=
  match merged.getLast? with
  | none => merged ++ [s]
  | some m =>
      if s.x1 > m.x2 + thr ∨ s.color ≠ m.color then merged ++ [s]
      else merged.dropLast ++ [⟨m.x1, max m.x2 s.x2, m.color⟩]

/-- `merge_segments` (lines 92-99): sort the bucket, then sweep left to
right, extending the open run or closing it. -/
def merge_segments (thr : ℕ) (segments : List Seg) : List Seg :=
  (sortSegs segments).foldl (mergeStep thr) []

/-- Forward-recursive rendering of the same sweep, used for proofs:
`cur` is the open run (`merged[-1]`). -/
def mergeRun (thr : ℕ) : Seg → List Seg → List Seg
  | cur, [] => [cur]
  | cur, s :: rest =>
      if s.x1 > cur.x2 + thr ∨ s.color ≠ cur.color then
        cur :: mergeRun thr s rest
      else
        mergeRun thr ⟨cur.x1, max cur.x2 s.x2, cur.color⟩ rest

/-- The condition under which the sweep closes the current run and opens a
new one (line 95, with `merged` nonempty). -/
def openCond (thr : ℕ) (a b : Seg) : Prop := b.x1 > a.x2 + thr ∨ b.color ≠ a.color

instance : ∀ thr, DecidableRel (openCond thr) := fun _ a b =>
  inferInstanceAs (Decidable (_ ∨ _))

/-- The merged segments emitted for coordinate `y` (line 102). -/
def mergedAt (thr : ℕ) (ap : List (ℕ × Seg)) (y : ℕ) : List Seg :=
  merge_segments thr (bucket ap y)

/-- All `(coordinate, merged segment)` pairs in emission order
(lines 101-102): ascending coordinate, bucket merge order within one
coordinate. -/
def emittedSegs (img : Img) (w h : ℕ) (dir : Direction) (bs ml sp thr : ℕ) :
    List (ℕ × Seg) :=
  (sortedKeys (rawAppends img w h dir bs ml sp) (h + w + bs)).flatMap
    (fun y => (mergedAt thr (rawAppends img w h dir bs ml sp) y).map (fun s => (y, s)))

/-- One `<path>` child element (lines 104-116). -/
structure PathElem where
  d : String
  stroke : String
  strokeWidth : String
  fill : String
deriving DecidableEq

/-- The `<path>` element emitted for one merged segment: horizontal stripes
draw `M x1 y L x2 y`, vertical ones `M x y1 L x y2`. -/
def pathOfSeg (dir : Direction) (p : ℕ × Seg) : PathElem :=
  match dir with
  | Direction.horizontal =>
      ⟨"M " ++ toString p.2.x1 ++ " " ++ toString p.1 ++ " L " ++
         toString p.2.x2 ++ " " ++ toString p.1, p.2.color, "0.5", "none"⟩
  | Direction.vertical =>
      ⟨"M " ++ toString p.1 ++ " " ++ toString p.2.x1 ++ " L " ++
         toString p.1 ++ " " ++ toString p.2.x2, p.2.color, "0.5", "none"⟩

/-- The root `<svg>` attributes (lines 44-56), in insertion order. -/
def svgAttrib (w h : ℕ) (useAbs : Bool) : List (String × String) :=
  [("xmlns", "http://www.w3.org/2000/svg"), ("version", "1.1")] ++
    (if useAbs then
      [("width", toString w ++ "px"), ("height", toString h ++ "px")]
    else
      [("width", "100%"), ("height", "auto"),
       ("viewBox", "0 0 " ++ toString w ++ " " ++ toString h),
       ("preserveAspectRatio", "xMidYMid meet")])

/-- The output document: one root element with its attributes and its list
of `<path>` children, in document order. -/
structure SvgDoc where
  attrs : List (String × String)
  paths : List PathElem
deriving DecidableEq

/-- `build_svg_tree` (lines 42-118): the whole conversion, producing the
single-root document. -/
def build_svg_tree (img : Img) (w h : ℕ) (dir : Direction)
    (bs ml sp thr : ℕ) (useAbs : Bool) : SvgDoc :=
  { attrs := svgAttrib w h useAbs
    paths := (emittedSegs img w h dir bs ml sp thr).map (pathOfSeg dir) }

/-- The 24-by-24 pure mid-gray test grid of the end-to-end example. -/
def midGray24 : Img := Img.mono (List.replicate 24 (List.replicate 24 128))

/-- A 36-by-1 color test row: a dark red block, a dark green block, and a
dark red block again. -/
def redGreenRed : Img :=
  Img.color [List.replicate 12 (100, 0, 0) ++ List.replicate 12 (0, 100, 0) ++
             List.replicate 12 (100, 0, 0)]

theorem segLE_refl (a : Seg) : segLE a a := Or.inr ⟨rfl, Or.inr ⟨rfl, le_refl _⟩⟩

theorem segLE_trans {a b c : Seg} (hab : segLE a b) (hbc : segLE b c) : segLE a c :=
  Trans.trans (r := segLE) hab hbc

theorem segLE_x1_le {a b : Seg} (h : segLE a b) : a.x1 ≤ b.x1 := by
  rcases h with h | ⟨h, _⟩
  · exact le_of_lt h
  · exact le_of_eq h

/-- Folding the Python loop body from an accumulator whose last element is
`cur` is the forward recursion `mergeRun` on `cur`. -/
theorem foldl_mergeStep (thr : ℕ) :
    ∀ (l : List Seg) (pre : List Seg) (cur : Seg),
      List.foldl (mergeStep thr) (pre ++ [cur]) l = pre ++ mergeRun thr cur l
  | [], pre, cur => by simp [mergeRun]
  | s :: l, pre, cur => by
      rw [List.foldl_cons]
      by_cases h : s.x1 > cur.x2 + thr ∨ s.color ≠ cur.color
      · have hstep : mergeStep thr (pre ++ [cur]) s = (pre ++ [cur]) ++ [s] := by
          simp only [mergeStep, List.getLast?_concat, if_pos h]
        rw [hstep, foldl_mergeStep thr l (pre ++ [cur]) s]
        simp [mergeRun, if_pos h]
      · have hstep : mergeStep thr (pre ++ [cur]) s
            = pre ++ [⟨cur.x1, max cur.x2 s.x2, cur.color⟩] := by
          simp only [mergeStep, List.getLast?_concat, if_neg h, List.dropLast_concat]
        rw [hstep, foldl_mergeStep thr l pre _]
        simp [mergeRun, if_neg h]

theorem merge_eq_nil (thr : ℕ) (segs : List Seg) (hs : sortSegs segs = []) :
    merge_segments thr segs = [] := by
  rw [merge_segments, hs]
  rfl

theorem merge_eq_run (thr : ℕ) (segs : List Seg) (c : Seg) (l : List Seg)
    (hs : sortSegs segs = c :: l) : merge_segments thr segs = mergeRun thr c l := by
  have hstep : mergeStep thr [] c = [] ++ [c] := rfl
  rw [merge_segments, hs, List.foldl_cons, hstep, foldl_mergeStep, List.nil_append]

/-- The sweep never returns an empty list, and the head keeps the start and
color of the open run. -/
theorem mergeRun_shape (thr : ℕ) :
    ∀ (rest : List Seg) (cur : Seg), ∃ x2' t,
      mergeRun thr cur rest = Seg.mk cur.x1 x2' cur.color :: t ∧ cur.x2 ≤ x2'
  | [], cur => ⟨cur.x2, [], by simp [mergeRun], le_refl _⟩
  | s :: rest, cur => by
      by_cases h : s.x1 > cur.x2 + thr ∨ s.color ≠ cur.color
      · exact ⟨cur.x2, mergeRun thr s rest, by simp [mergeRun, if_pos h], le_refl _⟩
      · obtain ⟨x2', t, ht, hle⟩ :=
          mergeRun_shape thr rest ⟨cur.x1, max cur.x2 s.x2, cur.color⟩
        exact ⟨x2', t, by simpa [mergeRun, if_neg h] using ht,
               le_trans (le_max_left _ _) hle⟩

/-- Consecutive runs produced by the sweep satisfy the reopening condition:
a gap strictly larger than the threshold, or a color change. -/
theorem mergeRun_chain (thr : ℕ) :
    ∀ (rest : List Seg) (cur : Seg), List.Chain' (openCond thr) (mergeRun thr cur rest)
  | [], cur => by simp [mergeRun]
  | s :: rest, cur => by
      by_cases h : s.x1 > cur.x2 + thr ∨ s.color ≠ cur.color
      · simp only [mergeRun, if_pos h]
        obtain ⟨x2', t, ht, _⟩ := mergeRun_shape thr rest s
        rw [ht]
        exact List.chain'_cons.mpr ⟨h, ht ▸ mergeRun_chain thr rest s⟩
      · simp only [mergeRun, if_neg h]
        exact mergeRun_chain thr rest _

/-- Extending the open run with the next sorted segment keeps the remaining
input sorted relative to the extended run. -/
theorem sorted_extend {cur s : Seg} {rest : List Seg}
    (hs : List.Sorted segLE (cur :: s :: rest)) (hco : s.color = cur.color) :
    List.Sorted segLE (Seg.mk cur.x1 (max cur.x2 s.x2) cur.color :: rest) := by
  rw [List.sorted_cons] at hs ⊢
  obtain ⟨hcur, hs⟩ := hs
  rw [List.sorted_cons] at hs
  obtain ⟨hsrest, hrest⟩ := hs
  refine ⟨?_, hrest⟩
  intro t ht
  have h1 : segLE cur s := hcur s (List.mem_cons_self _ _)
  have h2 : segLE s t := hsrest t ht
  have hx1 : cur.x1 ≤ s.x1 := segLE_x1_le h1
  have hx1' : s.x1 ≤ t.x1 := segLE_x1_le h2
  rcases Nat.lt_or_ge cur.x1 t.x1 with hlt | hge
  · exact Or.inl hlt
  · have hect : cur.x1 = t.x1 := le_antisymm (le_trans hx1 hx1') hge
    have hecs : cur.x1 = s.x1 := le_antisymm hx1 (by omega)
    have hest : s.x1 = t.x1 := by omega
    rcases h1 with h1 | ⟨_, h1⟩
    · omega
    rcases h2 with h2 | ⟨_, h2⟩
    · omega
    have hc2 : cur.x2 ≤ s.x2 := by rcases h1 with h | ⟨h, _⟩ <;> omega
    have hmax : max cur.x2 s.x2 = s.x2 := max_eq_right hc2
    refine Or.inr ⟨hect, ?_⟩
    show max cur.x2 s.x2 < t.x2 ∨ (max cur.x2 s.x2 = t.x2 ∧ cur.color ≤ t.color)
    rw [hmax]
    rcases h2 with h2 | ⟨h2, hc⟩
    · exact Or.inl h2
    · exact Or.inr ⟨h2, by rw [hco] at hc; exact hc⟩

/-- Every run produced by the sweep is at or above the opening run in the
tuple order, provided the input was sorted. -/
theorem mergeRun_le (thr : ℕ) :
    ∀ (rest : List Seg) (cur : Seg), List.Sorted segLE (cur :: rest) →
      ∀ e ∈ mergeRun thr cur rest, segLE cur e
  | [], cur, _, e, he => by
      simp only [mergeRun, List.mem_singleton] at he
      rw [he]
      exact segLE_refl cur
  | s :: rest, cur, hs, e, he => by
      by_cases h : s.x1 > cur.x2 + thr ∨ s.color ≠ cur.color
      · simp only [mergeRun, if_pos h] at he
        rcases List.mem_cons.mp he with rfl | he'
        · exact segLE_refl e
        · exact segLE_trans (List.rel_of_sorted_cons hs s (List.mem_cons_self _ _))
            (mergeRun_le thr rest s hs.tail e he')
      · simp only [mergeRun, if_neg h] at he
        push_neg at h
        have hcc : segLE cur (Seg.mk cur.x1 (max cur.x2 s.x2) cur.color) := by
          rcases lt_or_eq_of_le (le_max_left cur.x2 s.x2) with hm | hm
          · exact Or.inr ⟨rfl, Or.inl hm⟩
          · exact Or.inr ⟨rfl, Or.inr ⟨hm, le_refl _⟩⟩
        exact segLE_trans hcc
          (mergeRun_le thr rest _ (sorted_extend hs h.2) e he)

/-- The sweep of a sorted bucket returns a list sorted in the tuple order. -/
theorem mergeRun_sorted (thr : ℕ) :
    ∀ (rest : List Seg) (cur : Seg), List.Sorted segLE (cur :: rest) →
      List.Sorted segLE (mergeRun thr cur rest)
  | [], cur, _ => by simp [mergeRun]
  | s :: rest, cur, hs => by
      by_cases h : s.x1 > cur.x2 + thr ∨ s.color ≠ cur.color
      · simp only [mergeRun, if_pos h]
        rw [List.sorted_cons]
        refine ⟨?_, mergeRun_sorted thr rest s hs.tail⟩
        intro b hb
        exact segLE_trans (List.rel_of_sorted_cons hs s (List.mem_cons_self _ _))
          (mergeRun_le thr rest s hs.tail b hb)
      · simp only [mergeRun, if_neg h]
        push_neg at h
        exact mergeRun_sorted thr rest _ (sorted_extend hs h.2)

/-- A list whose consecutive elements already satisfy the reopening
condition passes through the sweep unchanged. -/
theorem mergeRun_of_chain (thr : ℕ) :
    ∀ (rest : List Seg) (cur : Seg), List.Chain' (openCond thr) (cur :: rest) →
      mergeRun thr cur rest = cur :: rest
  | [], cur, _ => by simp [mergeRun]
  | s :: rest, cur, hc => by
      rw [List.chain'_cons] at hc
      have h : s.x1 > cur.x2 + thr ∨ s.color ≠ cur.color := hc.1
      simp only [mergeRun, if_pos h]
      rw [mergeRun_of_chain thr rest s hc.2]

/-- `merge_segments` always returns a list sorted in the tuple order. -/
theorem merge_sorted (thr : ℕ) (segs : List Seg) :
    List.Sorted segLE (merge_segments thr segs) := by
  rcases hs : sortSegs segs with _ | ⟨c, l⟩
  · rw [merge_eq_nil thr segs hs]
    exact List.sorted_nil
  · rw [merge_eq_run thr segs c l hs]
    exact mergeRun_sorted thr l c (hs ▸ List.sorted_insertionSort segLE segs)

/-- Consecutive merged segments satisfy the reopening condition. -/
theorem merge_chain (thr : ℕ) (segs : List Seg) :
    List.Chain' (openCond thr) (merge_segments thr segs) := by
  rcases hs : sortSegs segs with _ | ⟨c, l⟩
  · rw [merge_eq_nil thr segs hs]
    exact List.chain'_nil
  · rw [merge_eq_run thr segs c l hs]
    exact mergeRun_chain thr l c

/-- `merge_segments` of a nonempty bucket is nonempty. -/
theorem merge_eq_nil_iff (thr : ℕ) (segs : List Seg) :
    merge_segments thr segs = [] ↔ segs = [] := by
  constructor
  · intro h
    rcases hs : sortSegs segs with _ | ⟨c, l⟩
    · have hlen := (List.perm_insertionSort segLE segs).length_eq
      rw [show List.insertionSort segLE segs = sortSegs segs from rfl, hs] at hlen
      exact List.length_eq_zero.mp hlen.symm
    · obtain ⟨x2', t, ht, _⟩ := mergeRun_shape thr l c
      rw [merge_eq_run thr segs c l hs, ht] at h
      exact absurd h (List.cons_ne_nil _ _)
  · intro h
    subst h
    rfl

/-- C6: merging the same-color bucket `[(0,5),(4,9),(11,15)]` with
`merge_threshold = 1` yields exactly `[(0,9),(11,15)]`: the first two
segments overlap and merge, and the gap of 2 to the third exceeds the
threshold, so it stays separate. -/
theorem claim6_merge_example :
    merge_segments 1 [⟨0, 5, "black"⟩, ⟨4, 9, "black"⟩, ⟨11, 15, "black"⟩]
      = [⟨0, 9, "black"⟩, ⟨11, 15, "black"⟩] := by decide

/-- C7: the merge scan is idempotent - re-merging an already merged bucket
returns the identical list of merged segments, for every bucket and every
merge threshold. -/
theorem claim7_merge_idempotent (thr : ℕ) (segs : List Seg) :
    merge_segments thr (merge_segments thr segs) = merge_segments thr segs := by
  have hsorted := merge_sorted thr segs
  have hchain := merge_chain thr segs
  have hsort_eq : sortSegs (merge_segments thr segs) = merge_segments thr segs :=
    hsorted.insertionSort_eq
  rcases hm : merge_segments thr segs with _ | ⟨c, l⟩
  · exact merge_eq_nil thr [] rfl
  · rw [hm] at hsort_eq hchain
    rw [merge_eq_run thr (c :: l) c l hsort_eq]
    exact mergeRun_of_chain thr l c hchain

set_option maxRecDepth 100000 in
/-- C3 counterexample: the claim asserts that ANY TWO merged segments at one
coordinate are separated by a gap strictly greater than `merge_threshold` or
differ in color.  For the color row `redGreenRed` (three 12px blocks:
dark red, dark green, dark red) with `merge_threshold = 12`, the bucket at
coordinate 0 merges into three runs; the first and third run both have
color `#640000` and their gap is `24 - 12 = 12`, which does NOT exceed the
threshold 12 - only consecutive runs are non-adjacent. -/
theorem claim3_counterexample :
    merge_segments 12 (bucket (rawAppends redGreenRed 36 1 Direction.horizontal 12 5 1) 0)
      = [⟨0, 12, "#640000"⟩, ⟨12, 24, "#006400"⟩, ⟨24, 36, "#640000"⟩] ∧
    ¬ ((24 : ℕ) > 12 + 12 ∨ ("#640000" : String) ≠ "#640000") := by
  constructor
  · decide
  · decide

/-- C3 (amended): within one coordinate the merged segments are sorted by
`start` (their starts are pairwise non-decreasing), and each CONSECUTIVE
pair is non-adjacent: its gap strictly exceeds `merge_threshold`, or the two
runs carry different colors.  Non-consecutive same-color runs may sit
within the threshold (see the counterexample). -/
theorem claim3_amended (thr : ℕ) (segs : List Seg) :
    List.Pairwise (fun a b : Seg => a.x1 ≤ b.x1) (merge_segments thr segs) ∧
    List.Chain' (openCond thr) (merge_segments thr segs) :=
  ⟨(merge_sorted thr segs).imp (fun hab => segLE_x1_le hab), merge_chain thr segs⟩

set_option maxRecDepth 100000 in
/-- C1 counterexample: on the 24-by-24 mid-gray grid with the default
parameters the final document contains 4 merged horizontal segments, not
2 - the second block row contributes segments at `y = 12` and `y = 13`. -/
theorem claim1_counterexample :
    (emittedSegs midGray24 24 24 Direction.horizontal 12 5 1 1).length = 4 ∧
    (4 : ℕ) ≠ 2 := by
  constructor
  · decide
  · decide

set_option maxRecDepth 100000 in
/-- C1 (amended): each of the 4 blocks of the 24-by-24 mid-gray grid has
density `floor(((255 - 128) / 255) * 5) = 2`, and the final document
contains exactly 4 merged horizontal segments, at `y = 0`, `y = 1`,
`y = 12` and `y = 13`, each spanning the full width `[0, 24)`. -/
theorem claim1_amended :
    densityFromLum 128 5 = 2 ∧
    sampleOf midGray24 0 0 12 5 = (2, "black") ∧
    sampleOf midGray24 0 12 12 5 = (2, "black") ∧
    sampleOf midGray24 12 0 12 5 = (2, "black") ∧
    sampleOf midGray24 12 12 12 5 = (2, "black") ∧
    emittedSegs midGray24 24 24 Direction.horizontal 12 5 1 1
      = [(0, ⟨0, 24, "black"⟩), (1, ⟨0, 24, "black"⟩),
         (12, ⟨0, 24, "black"⟩), (13, ⟨0, 24, "black"⟩)] := by
  refine ⟨by decide, by decide, by decide, by decide, by decide, by decide⟩

/-- C8: the conversion is a deterministic function of its arguments - two
calls on identical inputs produce identical documents. -/
theorem claim8_deterministic (img₁ img₂ : Img) (w₁ w₂ h₁ h₂ : ℕ)
    (dir₁ dir₂ : Direction) (bs₁ bs₂ ml₁ ml₂ sp₁ sp₂ thr₁ thr₂ : ℕ)
    (ua₁ ua₂ : Bool) (himg : img₁ = img₂) (hw : w₁ = w₂) (hh : h₁ = h₂)
    (hdir : dir₁ = dir₂) (hbs : bs₁ = bs₂) (hml : ml₁ = ml₂) (hsp : sp₁ = sp₂)
    (hthr : thr₁ = thr₂) (hua : ua₁ = ua₂) :
    build_svg_tree img₁ w₁ h₁ dir₁ bs₁ ml₁ sp₁ thr₁ ua₁
      = build_svg_tree img₂ w₂ h₂ dir₂ bs₂ ml₂ sp₂ thr₂ ua₂ := by
  subst himg hw hh hdir hbs hml hsp hthr hua
  rfl

/-- Witness for C8 at a concrete input. -/
theorem claim8_witness :
    Img.mono [[0]] = Img.mono [[0]] ∧
    build_svg_tree (Img.mono [[0]]) 1 1 Direction.horizontal 12 5 1 1 false
      = build_svg_tree (Img.mono [[0]]) 1 1 Direction.horizontal 12 5 1 1 false :=
  ⟨rfl, claim8_deterministic (Img.mono [[0]]) (Img.mono [[0]]) 1 1 1 1
    Direction.horizontal Direction.horizontal 12 12 5 5 1 1 1 1 false false
    rfl rfl rfl rfl rfl rfl rfl rfl rfl⟩

/-- C9: the absolutely sized document and the responsive document share the
identical list of path children and differ only in the root sizing
attributes: both start with the `xmlns` and `version` attributes, then the
absolute variant carries pixel `width`/`height` while the responsive one
carries `width=100%`, `height=auto`, the `viewBox`, and
`preserveAspectRatio`. -/
theorem claim9_sizing_modes (img : Img) (w h : ℕ) (dir : Direction)
    (bs ml sp thr : ℕ) :
    (build_svg_tree img w h dir bs ml sp thr true).paths
      = (build_svg_tree img w h dir bs ml sp thr false).paths ∧
    (build_svg_tree img w h dir bs ml sp thr true).attrs
      = [("xmlns", "http://www.w3.org/2000/svg"), ("version", "1.1")] ++
        [("width", toString w ++ "px"), ("height", toString h ++ "px")] ∧
    (build_svg_tree img w h dir bs ml sp thr false).attrs
      = [("xmlns", "http://www.w3.org/2000/svg"), ("version", "1.1")] ++
        [("width", "100%"), ("height", "auto"),
         ("viewBox", "0 0 " ++ toString w ++ " " ++ toString h),
         ("preserveAspectRatio", "xMidYMid meet")] :=
  ⟨rfl, rfl, rfl⟩

/-- C10: the paths of the document are exactly the emitted merged segments
in emission order, and that order is ascending in the perpendicular
coordinate, with ties (same coordinate) ordered by non-decreasing start. -/
theorem claim10_path_order (img : Img) (w h : ℕ) (dir : Direction)
    (bs ml sp thr : ℕ) (ua : Bool) :
    (build_svg_tree img w h dir bs ml sp thr ua).paths
      = (emittedSegs img w h dir bs ml sp thr).map (pathOfSeg dir) ∧
    List.Pairwise (fun a b : ℕ × Seg => a.1 < b.1 ∨ (a.1 = b.1 ∧ a.2.x1 ≤ b.2.x1))
      (emittedSegs img w h dir bs ml sp thr) := by
  refine ⟨rfl, ?_⟩
  simp only [emittedSegs]
  rw [List.pairwise_flatMap]
  constructor
  · intro y _
    rw [List.pairwise_map]
    exact (merge_sorted thr _).imp (fun hab => Or.inr ⟨rfl, segLE_x1_le hab⟩)
  · have hkeys : List.Pairwise (fun a b : ℕ => a < b)
        (sortedKeys (rawAppends img w h dir bs ml sp) (h + w + bs)) := by
      simp only [sortedKeys]
      exact (List.pairwise_lt_range _).filter _
    refine hkeys.imp ?_
    intro y₁ y₂ hlt a ha b hb
    obtain ⟨s, _, rfl⟩ := List.mem_map.mp ha
    obtain ⟨t, _, rfl⟩ := List.mem_map.mp hb
    exact Or.inl hlt

theorem origins_mem {n bs o : ℕ} (h : o ∈ origins n bs) : o < n := by
  rw [origins, List.mem_filter] at h
  exact List.mem_range.mp h.1

theorem blockLines_mem {origin bs sp d c : ℕ}
    (hc : c ∈ blockLines origin bs sp d) : origin ≤ c ∧ c < origin + bs := by
  rw [blockLines] at hc
  have hpred := List.mem_takeWhile_imp hc
  have hmem := (List.takeWhile_sublist _).subset hc
  rw [List.mem_map] at hmem
  obtain ⟨i, _, rfl⟩ := hmem
  exact ⟨Nat.le_add_right _ _, by simpa using hpred⟩

/-- Structure of every `line_buffer` append: it comes from a block origin
pair, its coordinate lies in the block's nominal perpendicular span
`[origin, origin + block_size)`, and its extent is the nominal (unclipped)
extent `[along, along + block_size)`. -/
theorem rawAppends_mem {img : Img} {w h : ℕ} {dir : Direction} {bs ml sp : ℕ}
    {c : ℕ} {s : Seg} (hmem : (c, s) ∈ rawAppends img w h dir bs ml sp) :
    ∃ oy ∈ origins h bs, ∃ ox ∈ origins w bs,
      perpOrigin dir oy ox ≤ c ∧ c < perpOrigin dir oy ox + bs ∧
      s.x1 = alongOrigin dir oy ox ∧ s.x2 = alongOrigin dir oy ox + bs := by
  rw [rawAppends, List.mem_flatMap] at hmem
  obtain ⟨oy, hoy, hmem⟩ := hmem
  rw [List.mem_flatMap] at hmem
  obtain ⟨ox, hox, hmem⟩ := hmem
  rw [blockAppends] at hmem
  by_cases hz : blockSizeAt img oy ox bs = 0
  · rw [if_pos hz] at hmem
    exact absurd hmem (List.not_mem_nil _)
  · rw [if_neg hz, List.mem_map] at hmem
    obtain ⟨c', hc', heq⟩ := hmem
    injection heq with h1 h2
    subst h1
    subst h2
    exact ⟨oy, hoy, ox, hox, (blockLines_mem hc').1, (blockLines_mem hc').2, rfl, rfl⟩

/-- C2 counterexample: on the all-black 2-by-2 grid with `block_size = 12`
the single block is partial (clipped to rows and columns `[0, 2)`), yet the
generator emits the append `(2, (0, 12, black))`: its coordinate 2 does NOT
lie strictly within the clipped perpendicular span `[0, 2)` of its block,
and its extent end 12 does NOT stay within the grid width 2. -/
theorem claim2_counterexample :
    ((2 : ℕ), (⟨0, 12, "black"⟩ : Seg)) ∈
      rawAppends (Img.mono [[0, 0], [0, 0]]) 2 2 Direction.horizontal 12 5 1 ∧
    ¬ ((2 : ℕ) < 2) ∧ ¬ ((12 : ℕ) ≤ 2) := by
  refine ⟨by decide, by decide, by decide⟩

/-- C2 (amended): every emitted RawSegment's coordinate lies strictly within
its originating block's NOMINAL (unclipped) perpendicular span
`[origin, origin + block_size)`, and its extent equals the nominal block
extent `[along, along + block_size)`; segments produced by partial blocks at
the right/bottom edges may therefore extend beyond the grid bounds - the
code does not clip them. -/
theorem claim2_amended {img : Img} {w h : ℕ} {dir : Direction} {bs ml sp : ℕ}
    {c : ℕ} {s : Seg} (hmem : (c, s) ∈ rawAppends img w h dir bs ml sp) :
    ∃ oy ∈ origins h bs, ∃ ox ∈ origins w bs,
      perpOrigin dir oy ox ≤ c ∧ c < perpOrigin dir oy ox + bs ∧
      s.x1 = alongOrigin dir oy ox ∧ s.x2 = alongOrigin dir oy ox + bs :=
  rawAppends_mem hmem

/-- Witness for C2 (amended) at a concrete input. -/
theorem claim2_witness :
    ((0 : ℕ), (⟨0, 12, "black"⟩ : Seg)) ∈
      rawAppends (Img.mono [[0, 0], [0, 0]]) 2 2 Direction.horizontal 12 5 1 ∧
    (∃ oy ∈ origins 2 12, ∃ ox ∈ origins 2 12,
      perpOrigin Direction.horizontal oy ox ≤ 0 ∧
      0 < perpOrigin Direction.horizontal oy ox + 12 ∧
      (⟨0, 12, "black"⟩ : Seg).x1 = alongOrigin Direction.horizontal oy ox ∧
      (⟨0, 12, "black"⟩ : Seg).x2 = alongOrigin Direction.horizontal oy ox + 12) :=
  ⟨by decide,
   @claim2_amended (Img.mono [[0, 0], [0, 0]]) 2 2 Direction.horizontal 12 5 1 0
     ⟨0, 12, "black"⟩ (by decide)⟩

theorem rawAppends_coord_lt {img : Img} {w h : ℕ} {dir : Direction}
    {bs ml sp : ℕ} {c : ℕ} {s : Seg}
    (hmem : (c, s) ∈ rawAppends img w h dir bs ml sp) : c < h + w + bs := by
  obtain ⟨oy, hoy, ox, hox, _, h2, _, _⟩ := rawAppends_mem hmem
  have h3 := origins_mem hoy
  have h4 := origins_mem hox
  cases dir <;> simp only [perpOrigin] at h2 <;> omega

theorem bucket_ne_nil_of_mem {ap : List (ℕ × Seg)} {p : ℕ × Seg} (hp : p ∈ ap) :
    bucket ap p.1 ≠ [] :=
  List.ne_nil_of_mem (List.mem_map.mpr ⟨p, List.mem_filter.mpr ⟨hp, by simp⟩, rfl⟩)

theorem blockLines_eq_nil_iff {origin bs sp d : ℕ} (hbs : 0 < bs) :
    blockLines origin bs sp d = [] ↔ d = 0 := by
  cases d with
  | zero => simp [blockLines]
  | succ k =>
      rw [blockLines, List.range_succ_eq_map, List.map_cons,
        List.takeWhile_cons_of_pos (by simpa using hbs)]
      simp

theorem blockAppends_eq_nil_iff {img : Img} {dir : Direction}
    {bs ml sp oy ox : ℕ} (hbs : 0 < bs) :
    blockAppends img dir bs ml sp oy ox = []
      ↔ (blockSizeAt img oy ox bs ≠ 0 → (sampleOf img oy ox bs ml).1 = 0) := by
  rw [blockAppends]
  by_cases hz : blockSizeAt img oy ox bs = 0
  · simp [hz]
  · rw [if_neg hz]
    simp [hz, blockLines_eq_nil_iff hbs]

theorem rawAppends_eq_nil_iff {img : Img} {w h : ℕ} {dir : Direction}
    {bs ml sp : ℕ} (hbs : 0 < bs) :
    rawAppends img w h dir bs ml sp = []
      ↔ ∀ oy ∈ origins h bs, ∀ ox ∈ origins w bs,
          blockSizeAt img oy ox bs ≠ 0 → (sampleOf img oy ox bs ml).1 = 0 := by
  rw [rawAppends]
  constructor
  · intro hall oy hoy ox hox
    exact (blockAppends_eq_nil_iff hbs).mp
      (List.flatMap_eq_nil_iff.mp (List.flatMap_eq_nil_iff.mp hall oy hoy) ox hox)
  · intro hall
    exact List.flatMap_eq_nil_iff.mpr (fun oy hoy =>
      List.flatMap_eq_nil_iff.mpr (fun ox hox =>
        (blockAppends_eq_nil_iff hbs).mpr (hall oy hoy ox hox)))

theorem emittedSegs_eq_nil_iff (img : Img) (w h : ℕ) (dir : Direction)
    (bs ml sp thr : ℕ) :
    emittedSegs img w h dir bs ml sp thr = []
      ↔ rawAppends img w h dir bs ml sp = [] := by
  simp only [emittedSegs]
  constructor
  · intro hnil
    by_contra hap
    obtain ⟨p, hp⟩ := List.exists_mem_of_ne_nil _ hap
    have hco : p.1 < h + w + bs := rawAppends_coord_lt hp
    have hkey : p.1 ∈ sortedKeys (rawAppends img w h dir bs ml sp) (h + w + bs) := by
      have hne := bucket_ne_nil_of_mem hp
      simp only [sortedKeys, List.mem_filter, List.mem_range]
      refine ⟨hco, ?_⟩
      cases hb : (bucket (rawAppends img w h dir bs ml sp) p.1).isEmpty
      · rfl
      · exact absurd (List.isEmpty_iff.mp hb) hne
    have hemp := List.flatMap_eq_nil_iff.mp hnil _ hkey
    rw [List.map_eq_nil_iff] at hemp
    exact bucket_ne_nil_of_mem hp ((merge_eq_nil_iff thr _).mp hemp)
  · intro hap
    rw [hap]
    have hkeys : sortedKeys ([] : List (ℕ × Seg)) (h + w + bs) = [] := by
      simp [sortedKeys, bucket]
    rw [hkeys]
    rfl

/-- C4 counterexample: the uniform brightness-210 1-by-1 image is NOT pure
white, yet its document has zero path children (its single block's density
is `int(((255-210)/255)*5) = int(0.88) = 0`), refuting "zero children only
if the source image is uniformly pure white". -/
theorem claim4_counterexample :
    (build_svg_tree (Img.mono [[210]]) 1 1 Direction.horizontal 12 5 1 1 false).paths = [] ∧
    ¬ (∀ row ∈ [[(210 : ℕ)]], ∀ v ∈ row, v = 255) := by
  refine ⟨by decide, by decide⟩

/-- C4 (amended): the output is one root element (carrying exactly the
computed attribute list) with zero or more path children, and it has zero
children precisely when every block of nonzero size has density 0 - a
uniformly pure-white image is sufficient for that, but not necessary. -/
theorem claim4_amended (img : Img) (w h : ℕ) (dir : Direction)
    (bs ml sp thr : ℕ) (ua : Bool) (hbs : 1 ≤ bs) :
    (build_svg_tree img w h dir bs ml sp thr ua).attrs = svgAttrib w h ua ∧
    ((build_svg_tree img w h dir bs ml sp thr ua).paths = [] ↔
      ∀ oy ∈ origins h bs, ∀ ox ∈ origins w bs,
        blockSizeAt img oy ox bs ≠ 0 → (sampleOf img oy ox bs ml).1 = 0) := by
  refine ⟨rfl, ?_⟩
  have h1 : (build_svg_tree img w h dir bs ml sp thr ua).paths = []
      ↔ emittedSegs img w h dir bs ml sp thr = [] := by
    simp only [build_svg_tree]
    exact List.map_eq_nil_iff
  rw [h1, emittedSegs_eq_nil_iff, rawAppends_eq_nil_iff hbs]

/-- Witness for C4 (amended) at a concrete input (an all-white image,
whose document indeed has no children). -/
theorem claim4_witness :
    (1 : ℕ) ≤ 12 ∧
    ((build_svg_tree (Img.mono [[255]]) 1 1 Direction.horizontal 12 5 1 1 false).paths = [] ↔
      ∀ oy ∈ origins 1 12, ∀ ox ∈ origins 1 12,
        blockSizeAt (Img.mono [[255]]) oy ox 12 ≠ 0 →
          (sampleOf (Img.mono [[255]]) oy ox 12 5).1 = 0) :=
  ⟨by decide,
   (claim4_amended (Img.mono [[255]]) 1 1 Direction.horizontal 12 5 1 1 false (by decide)).2⟩

theorem pyInt_of_nonneg {q : ℚ} (h : 0 ≤ q) : pyInt q = ⌊q⌋ := if_pos h

theorem pyInt_mono {p q : ℚ} (h : p ≤ q) : pyInt p ≤ pyInt q := by
  unfold pyInt
  split_ifs with h1 h2 h2
  · exact Int.floor_le_floor h
  · linarith
  · have hc : (⌈p⌉ : ℤ) ≤ 0 := Int.ceil_le.mpr (by exact_mod_cast le_of_not_le h1)
    have hf : (0 : ℤ) ≤ ⌊q⌋ := Int.floor_nonneg.mpr h2
    omega
  · exact Int.ceil_le_ceil h

theorem densityToNat_le {lum : ℚ} (ml : ℕ) (h : 0 ≤ lum) :
    (densityFromLum lum ml).toNat ≤ ml := by
  unfold densityFromLum pyInt
  split_ifs with h0
  · rw [Int.toNat_le]
    have hle : (((255 : ℚ) - lum) / 255) * (ml : ℕ) ≤ ((ml : ℕ) : ℚ) := by
      apply mul_le_of_le_one_left (by positivity)
      rw [div_le_one (by norm_num)]
      linarith
    calc ⌊(((255 : ℚ) - lum) / 255) * (ml : ℕ)⌋ ≤ ⌊((ml : ℕ) : ℚ)⌋ :=
          Int.floor_le_floor hle
      _ = ((ml : ℕ) : ℤ) := Int.floor_natCast ml
  · have hc : (⌈(((255 : ℚ) - lum) / 255) * (ml : ℕ)⌉ : ℤ) ≤ 0 :=
      Int.ceil_le.mpr (by exact_mod_cast le_of_not_le h0)
    omega

theorem blockMean_nonneg (b : List (List ℕ)) : 0 ≤ blockMean b :=
  div_nonneg (Nat.cast_nonneg _) (Nat.cast_nonneg _)

theorem blockMeanRGB_nonneg (b : List (List (ℕ × ℕ × ℕ))) :
    0 ≤ (blockMeanRGB b).1 ∧ 0 ≤ (blockMeanRGB b).2.1 ∧ 0 ≤ (blockMeanRGB b).2.2 := by
  refine ⟨?_, ?_, ?_⟩ <;>
    exact div_nonneg (Nat.cast_nonneg _) (Nat.cast_nonneg _)

theorem grayOf_nonneg {c : ℚ × ℚ × ℚ} (h1 : 0 ≤ c.1) (h2 : 0 ≤ c.2.1)
    (h3 : 0 ≤ c.2.2) : 0 ≤ grayOf c := by
  unfold grayOf
  rw [pyInt_of_nonneg (by positivity)]
  exact Int.floor_nonneg.mpr (by positivity)

/-- C5 counterexample: an all-white block in color mode with
`max_lines = 255` has density 1, not 0: the truncated ITU-R luminance of
pure white is `int(255 * 0.9999) = 254`, so the density is
`int(((255 - 254) / 255) * 255) = 1`.  This refutes the claim's "an
all-white block yields density 0" as stated for every `max_lines`. -/
theorem claim5_counterexample :
    sampleOf (Img.color [[(255, 255, 255)]]) 0 0 12 255 = (1, "#ffffff") ∧
    (1 : ℕ) ≠ 0 :=
  ⟨by decide, by decide⟩

/-- C5 (amended): density is `floor(((255 - luminance) / 255) * max_lines)`
with luminance the block's exact mean brightness in monochrome mode and the
truncated ITU-R luminance `int(0.2989 R + 0.5870 G + 0.1140 B)` of the
per-channel mean in color mode; density always lies in `[0, max_lines]`
(it is a natural number by construction); an all-white block yields density
0 in monochrome mode but `max_lines / 255` (integer division) in color
mode, because white's truncated luminance is 254; an all-black block yields
`max_lines` in both modes; and density is non-increasing in luminance. -/
theorem claim5_amended :
    (∀ (lum : ℚ) (ml : ℕ), lum ≤ 255 →
        densityFromLum lum ml = ⌊(((255 : ℚ) - lum) / 255) * (ml : ℕ)⌋) ∧
    (∀ (g : List (List ℕ)) (oy ox bs ml : ℕ),
        sampleOf (Img.mono g) oy ox bs ml
          = ((densityFromLum (blockMean (slice2 oy ox bs g)) ml).toNat, "black")) ∧
    (∀ (g : List (List (ℕ × ℕ × ℕ))) (oy ox bs ml : ℕ),
        sampleOf (Img.color g) oy ox bs ml
          = ((densityFromLum ((grayOf (blockMeanRGB (slice2 oy ox bs g)) : ℤ) : ℚ) ml).toNat,
             hexColor (blockMeanRGB (slice2 oy ox bs g)))) ∧
    (∀ (g : List (List ℕ)) (oy ox bs ml : ℕ),
        (sampleOf (Img.mono g) oy ox bs ml).1 ≤ ml) ∧
    (∀ (g : List (List (ℕ × ℕ × ℕ))) (oy ox bs ml : ℕ),
        (sampleOf (Img.color g) oy ox bs ml).1 ≤ ml) ∧
    (∀ ml : ℕ, (densityFromLum 255 ml).toNat = 0) ∧
    (∀ ml : ℕ, (densityFromLum 0 ml).toNat = ml) ∧
    (grayOf (255, 255, 255) = 254 ∧
      ∀ ml : ℕ, (densityFromLum ((grayOf (255, 255, 255) : ℤ) : ℚ) ml).toNat = ml / 255) ∧
    (∀ (ml : ℕ) (lum₁ lum₂ : ℚ), lum₁ ≤ lum₂ →
        densityFromLum lum₂ ml ≤ densityFromLum lum₁ ml) := by
  refine ⟨?_, ?_, ?_, ?_, ?_, ?_, ?_, ⟨?_, ?_⟩, ?_⟩
  · intro lum ml h
    unfold densityFromLum
    exact pyInt_of_nonneg
      (mul_nonneg (div_nonneg (by linarith) (by norm_num)) (Nat.cast_nonneg ml))
  · intro g oy ox bs ml
    rfl
  · intro g oy ox bs ml
    rfl
  · intro g oy ox bs ml
    exact densityToNat_le ml (blockMean_nonneg _)
  · intro g oy ox bs ml
    obtain ⟨n1, n2, n3⟩ := blockMeanRGB_nonneg (slice2 oy ox bs g)
    exact densityToNat_le ml (by exact_mod_cast grayOf_nonneg n1 n2 n3)
  · intro ml
    norm_num [densityFromLum, pyInt]
  · intro ml
    have h : densityFromLum 0 ml = ⌊((255 : ℚ) - 0) / 255 * (ml : ℕ)⌋ := by
      unfold densityFromLum
      exact pyInt_of_nonneg
        (mul_nonneg (div_nonneg (by norm_num) (by norm_num)) (Nat.cast_nonneg ml))
    rw [h]
    norm_num
  · decide
  · intro ml
    have hg : grayOf (255, 255, 255) = 254 := by decide
    rw [hg]
    have harg : (((255 : ℚ) - ((254 : ℤ) : ℚ)) / 255) * (ml : ℕ) = ((ml : ℕ) : ℚ) / ((255 : ℕ) : ℚ) := by
      push_cast
      ring
    unfold densityFromLum
    rw [harg, pyInt_of_nonneg (div_nonneg (Nat.cast_nonneg ml) (Nat.cast_nonneg 255)),
      Rat.floor_natCast_div_natCast]
    exact Int.toNat_natCast _
  · intro ml lum₁ lum₂ h
    unfold densityFromLum
    apply pyInt_mono
    apply mul_le_mul_of_nonneg_right ?_ (Nat.cast_nonneg ml)
    apply div_le_div_of_nonneg_right ?_ ?_
    · linarith
    · norm_num

/-- Witness for C5 (amended) at concrete inputs: the formula at the
mid-gray luminance 128 with `max_lines = 5`, and antitonicity between
luminances 100 and 128. -/
theorem claim5_witness :
    ((128 : ℚ) ≤ 255 ∧
      densityFromLum 128 5 = ⌊(((255 : ℚ) - 128) / 255) * ((5 : ℕ) : ℚ)⌋) ∧
    ((100 : ℚ) ≤ 128 ∧ densityFromLum 128 5 ≤ densityFromLum 100 5) :=
  ⟨⟨by norm_num, claim5_amended.1 128 5 (by norm_num)⟩,
   ⟨by norm_num, claim5_amended.2.2.2.2.2.2.2.2 5 100 128 (by norm_num)⟩⟩

end StripeApp
